import Mathlib

/-!
Shallow embedding of the `todolist` Go repository.

The data model (`internal/models/models.go`), the business layer
(`internal/todolist/todolist.go`) and the storage layer
(`internal/storage/storage.go`) are translated into pure Lean functions.

Modelling conventions:
* Go `int` becomes `Int` (ids may be non-positive in loaded data).
* `time.Time` becomes `Int`, a whole-second timestamp; the wire encoding of
  the timestamp is modelled as an exact value in the JSON tree.
* The storage `Save` call made by each mutating operation can fail; the
  outcome is passed as an explicit `saveFails : Bool` argument, and each
  operation returns the in-memory state after the call together with the
  error it reports, mirroring the rollback code in `todolist.go` verbatim.
-/

namespace TodoList

/-- `Task` from `internal/models/models.go`. -/
structure Task where
  id : Int
  description : String
  completed : Bool
  createdAt : Int
deriving DecidableEq, Repr

/-- `TaskList` from `internal/models/models.go`. -/
structure TaskList where
  tasks : List Task
  nextID : Int
deriving DecidableEq, Repr

/-- The error values of `internal/errors/errors.go` that the core can return
(`ErrEmptyDescription`, `ErrTaskNotFound`, `ErrInvalidID`, `ErrStorageRead`,
`ErrStorageWrite`, `ErrInvalidJSON`). `WrapWithContext` preserves the wrapped
error for `errors.Is`, so wrapping is dropped in the model. -/
inductive AppError where
  | emptyDescription
  | taskNotFound
  | invalidID
  | storageRead
  | storageWrite
  | invalidJSON
deriving DecidableEq, Repr

/-- Go's `unicode.IsSpace`: the characters `strings.TrimSpace` strips. -/
def isGoSpace (c : Char) : Bool :=
  let n := c.toNat
  decide ((9 ≤ n ∧ n ≤ 13) ∨ n = 32 ∨ n = 133 ∨ n = 160 ∨ n = 0x1680 ∨
    (0x2000 ≤ n ∧ n ≤ 0x200A) ∨ n = 0x2028 ∨ n = 0x2029 ∨ n = 0x202F ∨
    n = 0x205F ∨ n = 0x3000)

/-- Go's `strings.TrimSpace`: drop leading and trailing white space. -/
def goTrimSpace (s : String) : String :=
  String.mk (((s.data.dropWhile isGoSpace).reverse.dropWhile isGoSpace).reverse)

/-- The `for i, task := range … if task.ID == id` search used by
`CompleteTask` and `DeleteTask`: index and value of the first task whose
`ID` equals `id`. -/
def findTaskWithIndex (tasks : List Task) (id : Int) : Option (Nat × Task) :=
  match tasks with
  | [] => none
  | t :: ts =>
      if t.id = id then some (0, t)
      else (findTaskWithIndex ts id).map (fun p => (p.1 + 1, p.2))

/-- `tasks[i].Completed = b`: update the `completed` field of the task at
index `i`, leaving every other task untouched. -/
def setTaskCompleted (tasks : List Task) (i : Nat) (b : Bool) : List Task :=
  match tasks, i with
  | [], _ => []
  | t :: ts, 0 => { t with completed := b } :: ts
  | t :: ts, n + 1 => t :: setTaskCompleted ts n b

/-- `TodoList.AddTask` from `internal/todolist/todolist.go`.
`now` is the value of `time.Now()`; `saveFails` is the outcome of the
`storage.Save` call. Returns the in-memory state after the call and either
the created task or the reported error. -/
def AddTask (tl : TaskList) (description : String) (now : Int)
    (saveFails : Bool) : TaskList × Except AppError Task :=
  if goTrimSpace description = "" then
    (tl, .error .emptyDescription)
  else
    let task : Task :=
      { id := tl.nextID, description := description, completed := false,
        createdAt := now }
    let tasks1 := tl.tasks ++ [task]
    let nextID1 := tl.nextID + 1
    if saveFails then
      -- rollback: Tasks = Tasks[:len(Tasks)-1]; NextID--
      ({ tasks := tasks1.dropLast, nextID := nextID1 - 1 },
        .error .storageWrite)
    else
      ({ tasks := tasks1, nextID := nextID1 }, .ok task)

/-- `TodoList.ListTasks`: a copy of the task slice in its current order. -/
def ListTasks (tl : TaskList) : List Task :=
  tl.tasks

/-- `TodoList.CompleteTask` from `internal/todolist/todolist.go`.
Returns the in-memory state after the call and the reported error, if any.
Note the rollback branch: the code executes `Tasks[taskIndex].Completed =
false` unconditionally, it does not restore the flag's prior value. -/
def CompleteTask (tl : TaskList) (id : Int) (saveFails : Bool) :
    TaskList × Option AppError :=
  if id ≤ 0 then
    (tl, some .invalidID)
  else
    match findTaskWithIndex tl.tasks id with
    | none => (tl, some .taskNotFound)
    | some (i, _) =>
        let tasks1 := setTaskCompleted tl.tasks i true
        if saveFails then
          -- rollback: Tasks[taskIndex].Completed = false
          ({ tasks := setTaskCompleted tasks1 i false, nextID := tl.nextID },
            some .storageWrite)
        else
          ({ tasks := tasks1, nextID := tl.nextID }, none)

/-- `TodoList.DeleteTask` from `internal/todolist/todolist.go`.
Returns the in-memory state after the call and the reported error, if any.
The removal is `append(Tasks[:i], Tasks[i+1:]...)`; the rollback reinserts
the saved `deletedTask` at index `i` of the shortened slice. -/
def DeleteTask (tl : TaskList) (id : Int) (saveFails : Bool) :
    TaskList × Option AppError :=
  if id ≤ 0 then
    (tl, some .invalidID)
  else
    match findTaskWithIndex tl.tasks id with
    | none => (tl, some .taskNotFound)
    | some (i, deletedTask) =>
        let tasks1 := tl.tasks.take i ++ tl.tasks.drop (i + 1)
        if saveFails then
          -- rollback: append(Tasks[:i], append([]Task{deletedTask}, Tasks[i:]...)...)
          ({ tasks := tasks1.take i ++ deletedTask :: tasks1.drop i,
             nextID := tl.nextID }, some .storageWrite)
        else
          ({ tasks := tasks1, nextID := tl.nextID }, none)

/-! ### Storage layer (`internal/storage/storage.go`)

The JSON wire format is modelled as a tree of JSON values; a file whose
bytes are not valid JSON is represented as `Option.none` content. Encoding
follows the struct tags of `models.go` (`id`, `description`, `completed`,
`created_at`; `tasks`, `next_id`), decoding follows `encoding/json`
unmarshalling into the `TaskList` struct: a non-object errors, a missing or
null field keeps the zero value, a field of the wrong shape errors, and
`Load` normalizes a nil `Tasks` slice to an empty one. -/

/-- A JSON value of the wire format. Numbers of the format are integers. -/
inductive Json where
  | null
  | bool (b : Bool)
  | int (n : Int)
  | str (s : String)
  | arr (elems : List Json)
  | obj (fields : List (String × Json))

/-- Field lookup in a JSON object. -/
def lookupField (fields : List (String × Json)) (key : String) : Option Json :=
  match fields with
  | [] => none
  | (k, v) :: rest => if k = key then some v else lookupField rest key

/-- Unmarshal an `int`-typed struct field: missing or null keeps zero. -/
def fieldInt (fields : List (String × Json)) (key : String) : Option Int :=
  match lookupField fields key with
  | none => some 0
  | some .null => some 0
  | some (.int n) => some n
  | some _ => none

/-- Unmarshal a `string`-typed struct field: missing or null keeps empty. -/
def fieldStr (fields : List (String × Json)) (key : String) : Option String :=
  match lookupField fields key with
  | none => some ""
  | some .null => some ""
  | some (.str s) => some s
  | some _ => none

/-- Unmarshal a `bool`-typed struct field: missing or null keeps false. -/
def fieldBool (fields : List (String × Json)) (key : String) : Option Bool :=
  match lookupField fields key with
  | none => some false
  | some .null => some false
  | some (.bool b) => some b
  | some _ => none

/-- Marshal one `Task` (struct tag order of `models.go`). The timestamp is
the exact whole-second value. -/
def encodeTask (t : Task) : Json :=
  .obj [("id", .int t.id), ("description", .str t.description),
        ("completed", .bool t.completed), ("created_at", .int t.createdAt)]

/-- Marshal a `TaskList` (struct tag order of `models.go`). -/
def encodeTaskList (l : TaskList) : Json :=
  .obj [("tasks", .arr (l.tasks.map encodeTask)), ("next_id", .int l.nextID)]

/-- Unmarshal one `Task` from a JSON value. -/
def decodeTask (j : Json) : Option Task :=
  match j with
  | .obj fields =>
      match fieldInt fields "id", fieldStr fields "description",
            fieldBool fields "completed", fieldInt fields "created_at" with
      | some id, some d, some c, some ts =>
          some { id := id, description := d, completed := c, createdAt := ts }
      | _, _, _, _ => none
  | _ => none

/-- Unmarshal a JSON array of tasks; any bad element fails the whole parse. -/
def decodeTasks (js : List Json) : Option (List Task) :=
  match js with
  | [] => some []
  | j :: rest =>
      match decodeTask j, decodeTasks rest with
      | some t, some ts => some (t :: ts)
      | _, _ => none

/-- Unmarshal a `TaskList` from a JSON value; a nil/missing `tasks` field is
already normalized to the empty list, as `FileStorage.Load` does. -/
def decodeTaskList (j : Json) : Option TaskList :=
  match j with
  | .obj fields =>
      let tasksRes : Option (List Task) :=
        match lookupField fields "tasks" with
        | none => some []
        | some .null => some []
        | some (.arr js) => decodeTasks js
        | some _ => none
      match tasksRes, fieldInt fields "next_id" with
      | some ts, some n => some { tasks := ts, nextID := n }
      | _, _ => none
  | _ => none

/-- What `FileStorage.Load` finds at its path: no file, an unreadable file,
or readable bytes that either parse to a JSON value or do not parse. -/
inductive FileState where
  | absent
  | unreadable
  | content (parsed : Option Json)

/-- `FileStorage.Save`: the JSON document written for the list (the
marshalling step; I/O failure of the write itself is environmental). -/
def SaveDoc (l : TaskList) : Json :=
  encodeTaskList l

/-- `FileStorage.Load` from `internal/storage/storage.go`: absent file gives
the empty list with `NextID = 1`; a read error gives `ErrStorageRead`;
unparseable or wrongly-shaped JSON gives `ErrInvalidJSON`; otherwise the
parsed list is returned with no further validation. -/
def Load (fs : FileState) : Except AppError TaskList :=
  match fs with
  | .absent => .ok { tasks := [], nextID := 1 }
  | .unreadable => .error .storageRead
  | .content none => .error .invalidJSON
  | .content (some j) =>
      match decodeTaskList j with
      | none => .error .invalidJSON
      | some l => .ok l

/-- `NewTodoList`: initialization just loads (wrapping keeps the error). -/
def NewTodoList (fs : FileState) : Except AppError TaskList :=
  Load fs

/-! ### Operation traces

For the id-assignment invariants, a run of the service is a list of
operations applied in order, each with a succeeding save; an operation that
fails its own validation leaves the state unchanged (as the code does) and
assigns no id. -/

/-- One service call of a run: the argument of the operation, with the
`time.Now()` value for `add`. -/
inductive Op where
  | add (description : String) (now : Int)
  | complete (id : Int)
  | delete (id : Int)

/-- The in-memory state after one call (save succeeding). -/
def step (tl : TaskList) (op : Op) : TaskList :=
  match op with
  | .add d now => (AddTask tl d now false).1
  | .complete id => (CompleteTask tl id false).1
  | .delete id => (DeleteTask tl id false).1

/-- The state after a sequence of calls. -/
def runOps (tl : TaskList) (ops : List Op) : TaskList :=
  match ops with
  | [] => tl
  | op :: rest => runOps (step tl op) rest

/-- The ids handed out by the successful `AddTask` calls of a run, in call
order. -/
def assignedIds (tl : TaskList) (ops : List Op) : List Int :=
  match ops with
  | [] => []
  | op :: rest =>
      match op with
      | .add d now =>
          match (AddTask tl d now false).2 with
          | .ok task => task.id :: assignedIds (step tl op) rest
          | .error _ => assignedIds (step tl op) rest
      | _ => assignedIds (step tl op) rest

/-- Well-formedness of a collection (spec §3): `next_id` is strictly
greater than every id in the collection. -/
def WF (tl : TaskList) : Prop :=
  ∀ t ∈ tl.tasks, t.id < tl.nextID

instance (tl : TaskList) : Decidable (WF tl) := by
  unfold WF; infer_instance

/-! ### Helper lemmas about the task search and the slice operations -/

lemma findTaskWithIndex_eq_none {id : Int} :
    ∀ {l : List Task}, (∀ t ∈ l, t.id ≠ id) → findTaskWithIndex l id = none := by
  intro l
  induction l with
  | nil => intro _; rfl
  | cons x xs ih =>
      intro h
      have hx : x.id ≠ id := h x (List.mem_cons_self x xs)
      have hxs : findTaskWithIndex xs id = none :=
        ih (fun t ht => h t (List.mem_cons_of_mem x ht))
      simp [findTaskWithIndex, hx, hxs]

lemma findTaskWithIndex_cons_of_ne {id : Int} {x : Task} {xs : List Task}
    {i : Nat} {t : Task} (hx : x.id ≠ id)
    (h : findTaskWithIndex (x :: xs) id = some (i, t)) :
    ∃ j, i = j + 1 ∧ findTaskWithIndex xs id = some (j, t) := by
  have h' : (findTaskWithIndex xs id).map (fun p => (p.1 + 1, p.2)) =
      some (i, t) := by
    simpa [findTaskWithIndex, hx] using h
  rcases hmap : findTaskWithIndex xs id with _ | ⟨j, u⟩
  · rw [hmap] at h'; simp at h'
  · rw [hmap] at h'
    simp only [Option.map_some', Option.some.injEq, Prod.mk.injEq] at h'
    obtain ⟨hi, hu⟩ := h'
    exact ⟨j, hi.symm, by rw [hu]⟩

lemma findTaskWithIndex_getElem {id : Int} :
    ∀ {l : List Task} {i : Nat} {t : Task},
      findTaskWithIndex l id = some (i, t) → l[i]? = some t ∧ t.id = id := by
  intro l
  induction l with
  | nil => intro i t h; simp [findTaskWithIndex] at h
  | cons x xs ih =>
      intro i t h
      by_cases hx : x.id = id
      · simp [findTaskWithIndex, hx] at h
        obtain ⟨hi, ht⟩ := h
        subst hi; subst ht
        exact ⟨by simp, hx⟩
      · obtain ⟨j, hi, hfind⟩ := findTaskWithIndex_cons_of_ne hx h
        subst hi
        have := ih hfind
        simpa using this

lemma delete_rollback {id : Int} :
    ∀ (l : List Task) (i : Nat) (t : Task),
      findTaskWithIndex l id = some (i, t) →
      ((l.take i ++ l.drop (i + 1)).take i ++
        t :: (l.take i ++ l.drop (i + 1)).drop i) = l := by
  intro l
  induction l with
  | nil => intro i t h; simp [findTaskWithIndex] at h
  | cons x xs ih =>
      intro i t h
      by_cases hx : x.id = id
      · simp [findTaskWithIndex, hx] at h
        obtain ⟨hi, ht⟩ := h
        subst hi; subst ht
        simp
      · obtain ⟨j, hi, hfind⟩ := findTaskWithIndex_cons_of_ne hx h
        subst hi
        have hxs := ih j t hfind
        simp only [List.take_succ_cons, List.drop_succ_cons, List.cons_append]
        simpa using hxs

lemma setTaskCompleted_length :
    ∀ (l : List Task) (i : Nat) (b : Bool),
      (setTaskCompleted l i b).length = l.length := by
  intro l
  induction l with
  | nil => intro i b; rfl
  | cons x xs ih =>
      intro i b
      cases i with
      | zero => simp [setTaskCompleted]
      | succ n => simp [setTaskCompleted, ih]

lemma setTaskCompleted_getElem_ne :
    ∀ (l : List Task) (i j : Nat) (b : Bool), j ≠ i →
      (setTaskCompleted l i b)[j]? = l[j]? := by
  intro l
  induction l with
  | nil => intro i j b _; rfl
  | cons x xs ih =>
      intro i j b hne
      cases i with
      | zero =>
          cases j with
          | zero => exact absurd rfl hne
          | succ k => simp [setTaskCompleted]
      | succ n =>
          cases j with
          | zero => simp [setTaskCompleted]
          | succ k =>
              simp only [setTaskCompleted, List.getElem?_cons_succ]
              exact ih n k b (fun h => hne (by rw [h]))

lemma setTaskCompleted_getElem_eq :
    ∀ (l : List Task) (i : Nat) (b : Bool) (t : Task), l[i]? = some t →
      (setTaskCompleted l i b)[i]? = some { t with completed := b } := by
  intro l
  induction l with
  | nil => intro i b t h; simp at h
  | cons x xs ih =>
      intro i b t h
      cases i with
      | zero =>
          simp only [List.getElem?_cons_zero, Option.some.injEq] at h
          subst h
          simp [setTaskCompleted]
      | succ n =>
          simp only [List.getElem?_cons_succ] at h
          simp only [setTaskCompleted, List.getElem?_cons_succ]
          exact ih n b t h

lemma setTaskCompleted_idem :
    ∀ (l : List Task) (i : Nat) (b : Bool),
      setTaskCompleted (setTaskCompleted l i b) i b = setTaskCompleted l i b := by
  intro l
  induction l with
  | nil => intro i b; rfl
  | cons x xs ih =>
      intro i b
      cases i with
      | zero => simp [setTaskCompleted]
      | succ n => simp [setTaskCompleted, ih]

lemma findTaskWithIndex_setTaskCompleted {id : Int} :
    ∀ {l : List Task} {i : Nat} {t : Task} (b : Bool),
      findTaskWithIndex l id = some (i, t) →
      findTaskWithIndex (setTaskCompleted l i b) id =
        some (i, { t with completed := b }) := by
  intro l
  induction l with
  | nil => intro i t b h; simp [findTaskWithIndex] at h
  | cons x xs ih =>
      intro i t b h
      by_cases hx : x.id = id
      · simp [findTaskWithIndex, hx] at h
        obtain ⟨hi, ht⟩ := h
        subst hi; subst ht
        simp [setTaskCompleted, findTaskWithIndex, hx]
      · obtain ⟨j, hi, hfind⟩ := findTaskWithIndex_cons_of_ne hx h
        subst hi
        have := ih b hfind
        simp [setTaskCompleted, findTaskWithIndex, hx, this]

lemma setTaskCompleted_map_id :
    ∀ (l : List Task) (i : Nat) (b : Bool),
      (setTaskCompleted l i b).map (fun t => t.id) = l.map (fun t => t.id) := by
  intro l
  induction l with
  | nil => intro i b; rfl
  | cons x xs ih =>
      intro i b
      cases i with
      | zero => simp [setTaskCompleted]
      | succ n => simp [setTaskCompleted, ih]

/-! ### Shape lemmas for each operation -/

lemma addTask_of_blank {tl : TaskList} {d : String} {now : Int} {sf : Bool}
    (h : goTrimSpace d = "") :
    AddTask tl d now sf = (tl, .error .emptyDescription) := by
  simp [AddTask, h]

lemma addTask_of_nonblank_ok {tl : TaskList} {d : String} {now : Int}
    (h : goTrimSpace d ≠ "") :
    AddTask tl d now false =
      ({ tasks := tl.tasks ++
            [{ id := tl.nextID, description := d, completed := false,
               createdAt := now }],
         nextID := tl.nextID + 1 },
       .ok { id := tl.nextID, description := d, completed := false,
             createdAt := now }) := by
  simp [AddTask, h]

lemma addTask_of_nonblank_savefail {tl : TaskList} {d : String} {now : Int}
    (h : goTrimSpace d ≠ "") :
    AddTask tl d now true = (tl, .error .storageWrite) := by
  have hdrop :
      (tl.tasks ++
        [({ id := tl.nextID, description := d, completed := false,
            createdAt := now } : Task)]).dropLast = tl.tasks :=
    List.dropLast_concat
  simp [AddTask, h, hdrop]

lemma completeTask_fst_nextID (tl : TaskList) (id : Int) (sf : Bool) :
    ((CompleteTask tl id sf).1).nextID = tl.nextID := by
  unfold CompleteTask
  split
  · rfl
  · split
    · rfl
    · split <;> rfl

lemma deleteTask_fst_nextID (tl : TaskList) (id : Int) (sf : Bool) :
    ((DeleteTask tl id sf).1).nextID = tl.nextID := by
  unfold DeleteTask
  split
  · rfl
  · split
    · rfl
    · split <;> rfl

lemma completeTask_of_found {tl : TaskList} {id : Int} {i : Nat} {t : Task}
    (hid : 0 < id) (hfind : findTaskWithIndex tl.tasks id = some (i, t)) :
    CompleteTask tl id false =
      ({ tasks := setTaskCompleted tl.tasks i true, nextID := tl.nextID },
       none) := by
  simp [CompleteTask, Int.not_le.mpr hid, hfind]

lemma deleteTask_of_found {tl : TaskList} {id : Int} {i : Nat} {t : Task}
    (hid : 0 < id) (hfind : findTaskWithIndex tl.tasks id = some (i, t)) :
    DeleteTask tl id false =
      ({ tasks := tl.tasks.take i ++ tl.tasks.drop (i + 1),
         nextID := tl.nextID }, none) := by
  simp [DeleteTask, Int.not_le.mpr hid, hfind]

/-! ### Claim theorems -/

/-- C1: the claim states that when `CompleteTask`'s save fails, the
completed flag is reverted to the value it had immediately before the call,
not unconditionally to false. The rollback in the code executes
`Tasks[taskIndex].Completed = false` unconditionally, so on a task that was
already completed before the call (prior value `true`) a failed save leaves
the flag `false`. This theorem evaluates the code at that failing input:
one task with `id = 1` and `completed = true`; after `CompleteTask 1` with
a failing save the in-memory flag is `false`, diverging from the prior
value the claim (and the spec's rollback discipline) requires. -/
theorem completeTask_failed_save_clears_flag :
    CompleteTask { tasks := [⟨1, "a", true, 0⟩], nextID := 2 } 1 true =
      ({ tasks := [⟨1, "a", false, 0⟩], nextID := 2 },
       some .storageWrite) := rfl

/-- C2: for every collection state and every description whose trimmed form
is non-empty, if `AddTask`'s save fails, the appended task is removed and
`next_id` is decremented so the collection equals its exact pre-call state,
the call fails with the storage error, and the caller receives no task. -/
theorem addTask_failed_save_rolls_back (tl : TaskList) (d : String)
    (now : Int) (h : goTrimSpace d ≠ "") :
    AddTask tl d now true = (tl, .error .storageWrite) :=
  addTask_of_nonblank_savefail h

theorem addTask_failed_save_rolls_back_witness :
    AddTask { tasks := [], nextID := 1 } "buy milk" 0 true =
      ({ tasks := [], nextID := 1 }, .error .storageWrite) :=
  addTask_failed_save_rolls_back _ _ _ (by decide)

/-- C3: for every collection state and every id of an existing task, if
`DeleteTask` removes the task and the save fails, the removed task is
reinserted at its original position, so the collection equals its exact
pre-call state and the call fails with the storage error. -/
theorem deleteTask_failed_save_rolls_back (tl : TaskList) (id : Int)
    (i : Nat) (t : Task) (hid : 0 < id)
    (hfind : findTaskWithIndex tl.tasks id = some (i, t)) :
    DeleteTask tl id true = (tl, some .storageWrite) := by
  have hroll := delete_rollback tl.tasks i t hfind
  simp [DeleteTask, Int.not_le.mpr hid, hfind, hroll]

theorem deleteTask_failed_save_rolls_back_witness :
    DeleteTask
        { tasks := [⟨1, "a", false, 0⟩, ⟨2, "b", true, 3⟩], nextID := 3 }
        2 true =
      ({ tasks := [⟨1, "a", false, 0⟩, ⟨2, "b", true, 3⟩], nextID := 3 },
       some .storageWrite) :=
  deleteTask_failed_save_rolls_back _ 2 1 ⟨2, "b", true, 3⟩ (by decide)
    (by decide)

/-- C4: `AddTask` fails with the empty-description error if and only if the
whitespace-trimmed input is empty; a blank input leaves the collection
unchanged; and on success the stored description is the original,
untrimmed input. -/
theorem addTask_empty_description_iff (tl : TaskList) (d : String)
    (now : Int) (sf : Bool) :
    ((AddTask tl d now sf).2 = .error .emptyDescription ↔
      goTrimSpace d = "") ∧
    (goTrimSpace d = "" →
      AddTask tl d now sf = (tl, .error .emptyDescription)) ∧
    (∀ task : Task, (AddTask tl d now sf).2 = .ok task →
      task.description = d) := by
  by_cases h : goTrimSpace d = ""
  · simp [addTask_of_blank h, h]
  · cases sf
    · refine ⟨by simp [addTask_of_nonblank_ok h, h], fun hh => absurd hh h, ?_⟩
      intro task htask
      rw [addTask_of_nonblank_ok h] at htask
      simp only [Except.ok.injEq] at htask
      rw [← htask]
    · simp [addTask_of_nonblank_savefail h, h]

theorem addTask_empty_description_iff_witness :
    AddTask { tasks := [], nextID := 1 } "   " 0 false =
      ({ tasks := [], nextID := 1 }, .error .emptyDescription) :=
  (addTask_empty_description_iff { tasks := [], nextID := 1 }
    "   " 0 false).2.1 (by decide)

/-- C8: `CompleteTask` and `DeleteTask` with a non-positive id fail with the
invalid-id error; with a positive id matching no task they fail with the
not-found error; in both cases the collection is returned completely
unchanged, for either outcome of a save (no save is consulted: the result
does not depend on `saveFails`). -/
theorem invalid_or_missing_id_leaves_state_unchanged (tl : TaskList)
    (id : Int) (sf : Bool) :
    (id ≤ 0 →
      CompleteTask tl id sf = (tl, some .invalidID) ∧
      DeleteTask tl id sf = (tl, some .invalidID)) ∧
    (0 < id → (∀ t ∈ tl.tasks, t.id ≠ id) →
      CompleteTask tl id sf = (tl, some .taskNotFound) ∧
      DeleteTask tl id sf = (tl, some .taskNotFound)) := by
  constructor
  · intro h
    constructor <;> simp [CompleteTask, DeleteTask, h]
  · intro h hmem
    have hf := findTaskWithIndex_eq_none hmem
    constructor <;> simp [CompleteTask, DeleteTask, Int.not_le.mpr h, hf]

theorem invalid_or_missing_id_leaves_state_unchanged_witness :
    (CompleteTask { tasks := [⟨1, "a", false, 0⟩], nextID := 2 } 0 true =
      ({ tasks := [⟨1, "a", false, 0⟩], nextID := 2 }, some .invalidID)) ∧
    (DeleteTask { tasks := [⟨1, "a", false, 0⟩], nextID := 2 } 7 false =
      ({ tasks := [⟨1, "a", false, 0⟩], nextID := 2 },
       some .taskNotFound)) :=
  ⟨((invalid_or_missing_id_leaves_state_unchanged _ 0 true).1
      (by decide)).1,
   ((invalid_or_missing_id_leaves_state_unchanged _ 7 false).2
      (by decide) (by decide)).2⟩

/-- C5: on a well-formed collection (spec §3: `next_id` exceeds every
existing id) and a non-blank description, a successful `AddTask` appends
exactly one task — with id equal to the pre-call `next_id` (unused by any
task before the call), `completed = false` and the supplied creation time —
increments `next_id` by one, grows `ListTasks()` by exactly one, and
returns the created task. -/
theorem addTask_success_shape (tl : TaskList) (d : String) (now : Int)
    (htrim : goTrimSpace d ≠ "") (hwf : WF tl) :
    AddTask tl d now false =
      ({ tasks := tl.tasks ++
            [{ id := tl.nextID, description := d, completed := false,
               createdAt := now }],
         nextID := tl.nextID + 1 },
       .ok { id := tl.nextID, description := d, completed := false,
             createdAt := now }) ∧
    (ListTasks (AddTask tl d now false).1).length =
      (ListTasks tl).length + 1 ∧
    (∀ t ∈ tl.tasks, t.id ≠ tl.nextID) := by
  refine ⟨addTask_of_nonblank_ok htrim, ?_, ?_⟩
  · rw [addTask_of_nonblank_ok htrim]
    simp [ListTasks]
  · intro t ht
    exact Int.ne_of_lt (hwf t ht)

theorem addTask_success_shape_witness :
    AddTask { tasks := [], nextID := 1 } "a" 7 false =
      ({ tasks := [⟨1, "a", false, 7⟩], nextID := 2 },
       .ok ⟨1, "a", false, 7⟩) :=
  (addTask_success_shape { tasks := [], nextID := 1 } "a" 7
    (by decide) (by decide)).1

/-- C6: a successful `CompleteTask` on an existing id sets that task's
completed flag to true, leaves every other task and `next_id` unchanged,
and is idempotent: running `CompleteTask` again on the resulting state
succeeds and changes nothing. -/
theorem completeTask_sets_flag_and_idempotent (tl : TaskList) (id : Int)
    (tl1 : TaskList) (h : CompleteTask tl id false = (tl1, none)) :
    CompleteTask tl1 id false = (tl1, none) ∧
    tl1.nextID = tl.nextID ∧
    tl1.tasks.length = tl.tasks.length ∧
    (∃ (i : Nat) (t : Task), tl.tasks[i]? = some t ∧ t.id = id ∧
      tl1.tasks[i]? = some { t with completed := true } ∧
      ∀ j, j ≠ i → tl1.tasks[j]? = tl.tasks[j]?) := by
  by_cases hid : id ≤ 0
  · exfalso
    simp [CompleteTask, hid] at h
  · rcases hfind : findTaskWithIndex tl.tasks id with _ | ⟨i, t⟩
    · exfalso
      simp [CompleteTask, hid, hfind] at h
    · rw [completeTask_of_found (Int.not_le.mp hid) hfind] at h
      have htl1 : tl1 =
          { tasks := setTaskCompleted tl.tasks i true,
            nextID := tl.nextID } := by
        have := congrArg Prod.fst h
        simpa using this.symm
      subst htl1
      refine ⟨?_, rfl, setTaskCompleted_length _ _ _, ?_⟩
      · have hfind2 := findTaskWithIndex_setTaskCompleted true hfind
        rw [completeTask_of_found (Int.not_le.mp hid) hfind2,
          setTaskCompleted_idem]
      · obtain ⟨hget, hidt⟩ := findTaskWithIndex_getElem hfind
        exact ⟨i, t, hget, hidt, setTaskCompleted_getElem_eq _ _ _ _ hget,
          fun j hj => setTaskCompleted_getElem_ne _ _ _ _ hj⟩

theorem completeTask_sets_flag_and_idempotent_witness :
    CompleteTask { tasks := [⟨1, "a", true, 0⟩], nextID := 2 } 1 false =
      ({ tasks := [⟨1, "a", true, 0⟩], nextID := 2 }, none) :=
  (completeTask_sets_flag_and_idempotent
    { tasks := [⟨1, "a", false, 0⟩], nextID := 2 } 1
    { tasks := [⟨1, "a", true, 0⟩], nextID := 2 } (by decide)).1

/-! ### Invariant machinery for operation traces (claim C7) -/

lemma id_lt_of_mem_setTaskCompleted {l : List Task} {n : Int}
    (h : ∀ u ∈ l, u.id < n) (i : Nat) (b : Bool) :
    ∀ t ∈ setTaskCompleted l i b, t.id < n := by
  intro t ht
  have hmap : t.id ∈ (setTaskCompleted l i b).map (fun u => u.id) :=
    List.mem_map_of_mem _ ht
  rw [setTaskCompleted_map_id] at hmap
  obtain ⟨u, hu, hid⟩ := List.mem_map.mp hmap
  rw [← hid]
  exact h u hu

lemma WF_addTask_fst {tl : TaskList} {d : String} {now : Int}
    (h : WF tl) : WF ((AddTask tl d now false).1) := by
  by_cases hd : goTrimSpace d = ""
  · rw [addTask_of_blank hd]
    exact h
  · rw [addTask_of_nonblank_ok hd]
    intro t ht
    simp only [List.mem_append, List.mem_singleton] at ht
    rcases ht with ht | ht
    · have := h t ht
      simp only [WF]
      omega
    · subst ht
      simp only [WF]
      omega

lemma WF_completeTask_fst {tl : TaskList} {id : Int}
    (h : WF tl) : WF ((CompleteTask tl id false).1) := by
  by_cases hid : id ≤ 0
  · simp only [CompleteTask, if_pos hid]
    exact h
  · rcases hfind : findTaskWithIndex tl.tasks id with _ | ⟨i, t⟩
    · simp only [CompleteTask, if_neg hid, hfind]
      exact h
    · rw [completeTask_of_found (Int.not_le.mp hid) hfind]
      exact id_lt_of_mem_setTaskCompleted h i true

lemma WF_deleteTask_fst {tl : TaskList} {id : Int}
    (h : WF tl) : WF ((DeleteTask tl id false).1) := by
  by_cases hid : id ≤ 0
  · simp only [DeleteTask, if_pos hid]
    exact h
  · rcases hfind : findTaskWithIndex tl.tasks id with _ | ⟨i, t⟩
    · simp only [DeleteTask, if_neg hid, hfind]
      exact h
    · rw [deleteTask_of_found (Int.not_le.mp hid) hfind]
      intro u hu
      rcases List.mem_append.mp hu with hu | hu
      · exact h u (List.mem_of_mem_take hu)
      · exact h u (List.mem_of_mem_drop hu)

lemma WF_step {tl : TaskList} {op : Op} (h : WF tl) : WF (step tl op) := by
  cases op with
  | add d now => exact WF_addTask_fst h
  | complete id => exact WF_completeTask_fst h
  | delete id => exact WF_deleteTask_fst h

lemma WF_runOps : ∀ (ops : List Op) (tl : TaskList), WF tl →
    WF (runOps tl ops) := by
  intro ops
  induction ops with
  | nil => intro tl h; exact h
  | cons op rest ih => intro tl h; exact ih (step tl op) (WF_step h)

lemma runOps_append : ∀ (l1 l2 : List Op) (tl : TaskList),
    runOps tl (l1 ++ l2) = runOps (runOps tl l1) l2 := by
  intro l1
  induction l1 with
  | nil => intro l2 tl; rfl
  | cons op rest ih => intro l2 tl; exact ih l2 (step tl op)

lemma assignedIds_spec :
    ∀ (ops : List Op) (tl : TaskList),
      (∀ a ∈ assignedIds tl ops,
        tl.nextID ≤ a ∧ a < (runOps tl ops).nextID) ∧
      tl.nextID ≤ (runOps tl ops).nextID ∧
      List.Chain' (fun a b => a < b) (assignedIds tl ops) := by
  intro ops
  induction ops with
  | nil =>
      intro tl
      exact ⟨by simp [assignedIds], le_refl _, by simp [assignedIds]⟩
  | cons op rest ih =>
      intro tl
      cases op with
      | add d now =>
          by_cases h : goTrimSpace d = ""
          · have hstep : step tl (.add d now) = tl := by
              simp [step, addTask_of_blank h]
            have hass : assignedIds tl (.add d now :: rest) =
                assignedIds tl rest := by
              simp only [assignedIds, addTask_of_blank h, hstep]
            have hrun : runOps tl (.add d now :: rest) = runOps tl rest := by
              show runOps (step tl (.add d now)) rest = runOps tl rest
              rw [hstep]
            rw [hass, hrun]
            exact ih tl
          · have hstep : step tl (.add d now) =
                { tasks := tl.tasks ++
                    [{ id := tl.nextID, description := d, completed := false,
                       createdAt := now }],
                  nextID := tl.nextID + 1 } := by
              simp [step, addTask_of_nonblank_ok h]
            have hass : assignedIds tl (.add d now :: rest) =
                tl.nextID :: assignedIds (step tl (.add d now)) rest := by
              simp only [assignedIds, addTask_of_nonblank_ok h]
            have hrun : runOps tl (.add d now :: rest) =
                runOps (step tl (.add d now)) rest := rfl
            obtain ⟨ihmem, ihle, ihchain⟩ := ih (step tl (.add d now))
            have hnext1 : (step tl (.add d now)).nextID = tl.nextID + 1 := by
              rw [hstep]
            refine ⟨?_, ?_, ?_⟩
            · intro a ha
              rw [hass] at ha
              rw [hrun]
              rcases List.mem_cons.mp ha with rfl | ha
              · refine ⟨le_refl _, ?_⟩
                have := ihle
                rw [hnext1] at this
                omega
              · have := ihmem a ha
                rw [hnext1] at this
                exact ⟨by omega, this.2⟩
            · rw [hrun]
              have := ihle
              rw [hnext1] at this
              omega
            · rw [hass]
              refine List.chain'_cons'.mpr ⟨?_, ihchain⟩
              intro y hy
              have hymem := List.mem_of_mem_head? hy
              have := (ihmem y hymem).1
              rw [hnext1] at this
              omega
      | complete id =>
          have hnext : (step tl (.complete id)).nextID = tl.nextID :=
            completeTask_fst_nextID tl id false
          have hass : assignedIds tl (.complete id :: rest) =
              assignedIds (step tl (.complete id)) rest := rfl
          have hrun : runOps tl (.complete id :: rest) =
              runOps (step tl (.complete id)) rest := rfl
          obtain ⟨ihmem, ihle, ihchain⟩ := ih (step tl (.complete id))
          rw [hass, hrun, ← hnext]
          exact ⟨ihmem, ihle, ihchain⟩
      | delete id =>
          have hnext : (step tl (.delete id)).nextID = tl.nextID :=
            deleteTask_fst_nextID tl id false
          have hass : assignedIds tl (.delete id :: rest) =
              assignedIds (step tl (.delete id)) rest := rfl
          have hrun : runOps tl (.delete id :: rest) =
              runOps (step tl (.delete id)) rest := rfl
          obtain ⟨ihmem, ihle, ihchain⟩ := ih (step tl (.delete id))
          rw [hass, hrun, ← hnext]
          exact ⟨ihmem, ihle, ihchain⟩

lemma not_assigned_after_delete (tl : TaskList) (hwf : WF tl)
    (ops1 : List Op) (d : Int) (ops2 : List Op)
    (hmem : ∃ t ∈ (runOps tl ops1).tasks, t.id = d) :
    d ∉ assignedIds (runOps tl (ops1 ++ [Op.delete d])) ops2 := by
  have hwf1 : WF (runOps tl ops1) := WF_runOps ops1 tl hwf
  obtain ⟨t, htmem, htid⟩ := hmem
  have hdlt : d < (runOps tl ops1).nextID := htid ▸ hwf1 t htmem
  have hrun : runOps tl (ops1 ++ [Op.delete d]) =
      step (runOps tl ops1) (.delete d) := by
    rw [runOps_append]
    rfl
  have hnext2 : (step (runOps tl ops1) (.delete d)).nextID =
      (runOps tl ops1).nextID := deleteTask_fst_nextID _ d false
  intro hd
  rw [hrun] at hd
  have hle :=
    ((assignedIds_spec ops2 (step (runOps tl ops1) (.delete d))).1 d hd).1
  rw [hnext2] at hle
  omega

/-- C7: starting from a well-formed collection, across any sequence of
operations (each with a succeeding save) the ids assigned by `AddTask` are
strictly increasing in call order and pairwise distinct, every assigned id
stays below the final `next_id`, `DeleteTask` never changes `next_id`, and
an id freed by a `DeleteTask` of an existing task is never assigned by any
later `AddTask` of the sequence. -/
theorem assigned_ids_strictly_increasing_never_reused (tl : TaskList)
    (ops : List Op) (hwf : WF tl) :
    List.Chain' (fun a b => a < b) (assignedIds tl ops) ∧
    List.Pairwise (fun a b => a ≠ b) (assignedIds tl ops) ∧
    (∀ a ∈ assignedIds tl ops, a < (runOps tl ops).nextID) ∧
    (∀ (tl2 : TaskList) (id : Int) (sf : Bool),
      ((DeleteTask tl2 id sf).1).nextID = tl2.nextID) ∧
    (∀ (ops1 : List Op) (d : Int) (ops2 : List Op),
      ops = ops1 ++ Op.delete d :: ops2 →
      (∃ t ∈ (runOps tl ops1).tasks, t.id = d) →
      d ∉ assignedIds (runOps tl (ops1 ++ [Op.delete d])) ops2) := by
  obtain ⟨hmem, hle, hchain⟩ := assignedIds_spec ops tl
  refine ⟨hchain, ?_, fun a ha => (hmem a ha).2,
    fun tl2 id sf => deleteTask_fst_nextID tl2 id sf, ?_⟩
  · have hp : List.Pairwise (fun a b => a < b) (assignedIds tl ops) :=
      List.chain'_iff_pairwise.mp hchain
    exact hp.imp Int.ne_of_lt
  · intro ops1 d ops2 _ hex
    exact not_assigned_after_delete tl hwf ops1 d ops2 hex

theorem assigned_ids_strictly_increasing_never_reused_witness :
    (1 : Int) ∉
      assignedIds
        (runOps { tasks := [], nextID := 1 }
          ([Op.add "a" 0, Op.add "b" 1] ++ [Op.delete 1]))
        [Op.add "c" 2] :=
  (assigned_ids_strictly_increasing_never_reused
      { tasks := [], nextID := 1 }
      ([Op.add "a" 0, Op.add "b" 1] ++ Op.delete 1 :: [Op.add "c" 2])
      (by decide)).2.2.2.2
    [Op.add "a" 0, Op.add "b" 1] 1 [Op.add "c" 2] rfl (by decide)

/-! ### Round trip of the wire format (claims C9 and C10) -/

lemma decodeTask_encodeTask (t : Task) : decodeTask (encodeTask t) = some t := by
  rfl

lemma decodeTasks_map :
    ∀ ts : List Task, decodeTasks (ts.map encodeTask) = some ts := by
  intro ts
  induction ts with
  | nil => rfl
  | cons t rest ih =>
      simp only [List.map_cons, decodeTasks, decodeTask_encodeTask, ih]

lemma decode_encode (l : TaskList) :
    decodeTaskList (encodeTaskList l) = some l := by
  have harr : decodeTasks (l.tasks.map encodeTask) = some l.tasks :=
    decodeTasks_map l.tasks
  simp [decodeTaskList, encodeTaskList, lookupField, fieldInt, harr]

/-- C9: `Save` followed by `Load` reproduces an equal collection: the same
`next_id` and the same tasks in the same order with every field equal, the
creation timestamp (modelled at whole-second precision) included. -/
theorem save_load_roundtrip (l : TaskList) :
    Load (.content (some (SaveDoc l))) = .ok l := by
  simp only [Load, SaveDoc, decode_encode]

/-- A collection violating every business invariant at once: a task with a
non-positive id and empty description, two tasks sharing id 2, and a
`next_id` not exceeding the existing ids. Used to show `Load` performs no
validation. -/
def corruptList : TaskList :=
  { tasks := [⟨0, "", true, 5⟩, ⟨2, "a", false, 3⟩, ⟨2, "b", false, 4⟩],
    nextID := 1 }

/-- C10: `Load` (and service initialization) fails only on a read error or a
parse error: an absent file yields the empty collection, any parseable
document is accepted as-is with no validation of business invariants —
including `corruptList` with non-positive and duplicate ids, an empty
description and a stale `next_id` — and subsequent operations act on that
state, `CompleteTask`/`DeleteTask` affecting the first task in stored order
whose id matches. -/
theorem load_accepts_any_parseable_collection (j : Json) (l : TaskList)
    (hparse : decodeTaskList j = some l) :
    Load (.content (some j)) = .ok l ∧
    Load .absent = .ok { tasks := [], nextID := 1 } ∧
    Load .unreadable = .error .storageRead ∧
    Load (.content none) = .error .invalidJSON ∧
    NewTodoList (.content (some (encodeTaskList corruptList))) =
      .ok corruptList ∧
    CompleteTask corruptList 2 false =
      ({ tasks := [⟨0, "", true, 5⟩, ⟨2, "a", true, 3⟩, ⟨2, "b", false, 4⟩],
         nextID := 1 }, none) ∧
    DeleteTask corruptList 2 false =
      ({ tasks := [⟨0, "", true, 5⟩, ⟨2, "b", false, 4⟩],
         nextID := 1 }, none) := by
  refine ⟨?_, rfl, rfl, rfl, ?_, by decide, by decide⟩
  · simp only [Load, hparse]
  · show Load (.content (some (encodeTaskList corruptList))) = .ok corruptList
    simp only [Load, decode_encode]

theorem load_accepts_any_parseable_collection_witness :
    Load (.content (some (encodeTaskList corruptList))) = .ok corruptList :=
  (load_accepts_any_parseable_collection (encodeTaskList corruptList)
    corruptList (by rfl)).1

end TodoList
